import Mathlib

/-!
# Verification of the bjjfanatics mention pipeline

Shallow embedding of the core of the repository: the mention matcher
(`find_throws_in_text` of checkduplicatedbentries.py and
kano_judoscraper_implementation.py, `find_instructionals_in_text` of
danaher_scraper_implementation.py), the mention store with its two dedup
passes (`remove_exact_duplicates` / `remove_soft_duplicates` of
deleteduplicates.py and kano_judoscraper_implementation.py), the
future-timestamp repair (`fix_future_timestamps`), and the monthly
time-series aggregation with outlier capping
(`plot_mentions_over_time` of both script variants).
-/

namespace BJJ

/-! ## Mention matcher

The Python matchers lower-case the text and, per catalog entry, search for
the regex `(?i)\b<re.escape(entry)>\b` (`find_throws_in_text`) or test
plain substring containment (`find_instructionals_in_text`).  We model a
regex word character (`\w`) as an ASCII alphanumeric character or an
underscore, and `re.search` of an escaped literal between two `\b`
assertions as: some start index at which the literal is a prefix of the
remaining text and both ends sit on a word/non-word transition. -/

/-- A regex word character (`\w`), ASCII model: alphanumeric or underscore. -/
def isWordChar (c : Char) : Bool := c.isAlphanum || c == '_'

/-- Python's `str.lower()` (ASCII model), as a character list. -/
def lowerChars (s : String) : List Char := s.toList.map Char.toLower

/-- Whether the character at index `i` of `t` is a word character;
out-of-range positions count as non-word (string edge). -/
def wordAt (t : List Char) (i : Nat) : Bool := isWordChar (t.getD i ' ')

/-- Whether the character just before index `i` is a word character;
the position before the start counts as non-word. -/
def wordBefore (t : List Char) (i : Nat) : Bool :=
  match i with
  | 0 => false
  | j + 1 => wordAt t j

/-- The regex `\b` assertion at position `i` of `t`: the word-character
status changes between the previous and the current position. -/
def boundary (t : List Char) (i : Nat) : Bool := wordBefore t i != wordAt t i

/-- A match of `\b<literal p>\b` starting at position `i` of `t`:
`p` is a literal prefix of `t` dropped at `i`, with `\b` holding at both
ends of the occurrence. -/
def occursWordAt (t p : List Char) (i : Nat) : Bool :=
  p.isPrefixOf (t.drop i) && boundary t i && boundary t (i + p.length)

/-- `re.search` of the pattern `\b<literal p>\b` over `t`: some start
position in `0..t.length` matches. -/
def regexWordSearch (t p : List Char) : Bool :=
  (List.range (t.length + 1)).any (occursWordAt t p)

/-- Python's `p in t` substring containment on character lists. -/
def substrContains (t p : List Char) : Bool :=
  (List.range (t.length + 1)).any (fun i => p.isPrefixOf (t.drop i))

/-- `find_throws_in_text(text, judo_throws)` of checkduplicatedbentries.py
(lines 67-78): lower-cases `text` and keeps, in catalog order, every throw
whose escaped literal occurs between word boundaries (the pattern carries
`(?i)`, so the throw is compared case-insensitively against the already
lowered text, i.e. both sides lowered). -/
def find_throws_in_text (text : String) (judo_throws : List String) : List String :=
  judo_throws.filter (fun throw => regexWordSearch (lowerChars text) (lowerChars throw))

/-- `find_throws_in_text` of kano_judoscraper_implementation.py
(lines 74-88): same search, but guarded by `if not text or not
isinstance(text, str): return found`, so `None` and the empty string both
yield the empty list without touching the regex. -/
def find_throws_in_text_kano (text : Option String) (judo_throws : List String) : List String :=
  match text with
  | none => []
  | some t => if t = "" then [] else find_throws_in_text t judo_throws

/-- The checkduplicatedbentries.py variant applied to a possibly-`None`
text: it has no guard, so `None.lower()` raises `AttributeError`,
modelled as `none`; a proper string returns the list of matches. -/
def find_throws_in_text_chk (text : Option String) (judo_throws : List String) :
    Option (List String) :=
  match text with
  | none => none
  | some t => some (find_throws_in_text t judo_throws)

/-- `find_instructionals_in_text(text, instructionals)` of
danaher_scraper_implementation.py (lines 87-98): a naive case-insensitive
substring check, no word boundaries. -/
def find_instructionals_in_text (text : String) (instructionals : List String) : List String :=
  instructionals.filter (fun n => substrContains (lowerChars text) (lowerChars n))

/-- The spec's wording of a whole-word occurrence: the entry occurs in the
text at some position with a non-word character (or the string edge) on
both sides.  This is the claim's reading of the `\b..\b` pattern, stated
independently of the regex semantics for comparison with it. -/
def specWholeWordOccurs (t p : List Char) : Bool :=
  (List.range (t.length + 1)).any (fun i =>
    p.isPrefixOf (t.drop i) && !(wordBefore t i) && !(wordAt t (i + p.length)))

theorem isWordChar_space : isWordChar ' ' = false := by decide

theorem getD_of_isPrefixOf {p t : List Char} {i j : Nat}
    (h : p.isPrefixOf (t.drop i) = true) (hj : j < p.length) :
    t.getD (i + j) ' ' = p.getD j ' ' := by
  rw [List.isPrefixOf_iff_prefix] at h
  obtain ⟨s, hs⟩ := h
  rw [List.getD_eq_getElem?_getD, List.getD_eq_getElem?_getD, ← List.getElem?_drop, ← hs,
    List.getElem?_append]
  simp [hj]

theorem headD_eq_getD_zero (p : List Char) : p.headD ' ' = p.getD 0 ' ' := by
  cases p <;> rfl

theorem getLastD_eq_getD (p : List Char) : p.getLastD ' ' = p.getD (p.length - 1) ' ' := by
  induction p with
  | nil => rfl
  | cons a as ih =>
    cases as with
    | nil => rfl
    | cons b bs => simpa using ih

/-- On a pattern that is nonempty and starts and ends with a word
character, the `\b..\b` regex search agrees with the spec's whole-word
reading (non-word character or string edge on both sides). -/
theorem regexWordSearch_eq_spec {t p : List Char} (hne : p ≠ [])
    (hh : isWordChar (p.headD ' ') = true) (hl : isWordChar (p.getLastD ' ') = true) :
    regexWordSearch t p = specWholeWordOccurs t p := by
  have hlen : 1 ≤ p.length := by
    cases p with
    | nil => exact absurd rfl hne
    | cons a as => exact Nat.succ_le_succ (Nat.zero_le _)
  have key : ∀ i, occursWordAt t p i =
      (p.isPrefixOf (t.drop i) && !(wordBefore t i) && !(wordAt t (i + p.length))) := by
    intro i
    unfold occursWordAt
    cases hpre : p.isPrefixOf (t.drop i) with
    | false => simp
    | true =>
      have h0 : wordAt t i = true := by
        have hg := getD_of_isPrefixOf hpre (Nat.lt_of_lt_of_le Nat.zero_lt_one hlen)
        unfold wordAt
        rw [Nat.add_zero] at hg
        rw [hg, ← headD_eq_getD_zero]
        exact hh
      have h1 : wordBefore t (i + p.length) = true := by
        have hsplit : i + p.length = (i + (p.length - 1)) + 1 := by omega
        have hg := getD_of_isPrefixOf hpre (j := p.length - 1) (by omega)
        rw [hsplit]
        show wordAt t (i + (p.length - 1)) = true
        unfold wordAt
        rw [hg, ← getLastD_eq_getD]
        exact hl
      unfold boundary
      rw [h0, h1]
      cases hb : wordBefore t i <;> cases hc : wordAt t (i + p.length) <;> rfl
  have keyf : occursWordAt t p = fun i =>
      (p.isPrefixOf (t.drop i) && !(wordBefore t i) && !(wordAt t (i + p.length))) := funext key
  unfold regexWordSearch specWholeWordOccurs
  rw [keyf]

/-- C1 (amended): for `find_throws_in_text` and a catalog entry whose
lowered form is nonempty and starts and ends with a word character, the
entry is reported exactly when it is in the catalog and occurs in the
text, case-insensitively, as a whole word bounded by non-word characters
(or the string edge) on both sides. -/
theorem find_throws_whole_word (text entry : String) (catalog : List String)
    (hne : lowerChars entry ≠ [])
    (hh : isWordChar ((lowerChars entry).headD ' ') = true)
    (hl : isWordChar ((lowerChars entry).getLastD ' ') = true) :
    entry ∈ find_throws_in_text text catalog ↔
      entry ∈ catalog ∧ specWholeWordOccurs (lowerChars text) (lowerChars entry) = true := by
  unfold find_throws_in_text
  rw [List.mem_filter, regexWordSearch_eq_spec hne hh hl]

/-- Witness for C1 at the spec's own example: catalog `["O Goshi"]`,
text `"great O Goshi today"`. -/
theorem find_throws_whole_word_witness :
    "O Goshi" ∈ find_throws_in_text "great O Goshi today" ["O Goshi"] ↔
      "O Goshi" ∈ (["O Goshi"] : List String) ∧
        specWholeWordOccurs (lowerChars "great O Goshi today") (lowerChars "O Goshi") = true :=
  find_throws_whole_word "great O Goshi today" "O Goshi" ["O Goshi"]
    (by decide) (by decide) (by decide)

/-- Counterexample to C1 as stated: (a) the danaher matcher
`find_instructionals_in_text` reports `"Goshi"` for a text containing it
only inside the larger word `"FooGoshiBar"`, where no whole-word
occurrence exists; (b) for an entry starting with a non-word character,
`find_throws_in_text` reports `"-x"` in `"a-x"` although the occurrence
is preceded by the word character `a`, so it is not bounded by non-word
characters on both sides. -/
theorem matcher_whole_word_cex :
    find_instructionals_in_text "FooGoshiBar" ["Goshi"] = ["Goshi"] ∧
    specWholeWordOccurs (lowerChars "FooGoshiBar") (lowerChars "Goshi") = false ∧
    find_throws_in_text "a-x" ["-x"] = ["-x"] ∧
    specWholeWordOccurs (lowerChars "a-x") (lowerChars "-x") = false :=
  ⟨by decide, by decide, by decide, by decide⟩

theorem regexWordSearch_nil (p : List Char) : regexWordSearch [] p = false := by
  have hb : boundary [] 0 = false := by
    unfold boundary wordBefore wordAt
    simp [List.getD_eq_getElem?_getD, isWordChar_space]
  simp [regexWordSearch, occursWordAt, hb]

/-- C2 (amended): the kano matcher returns the empty list on a `None`
text and on the empty text, with no error, and the
checkduplicatedbentries matcher returns the empty list on the empty
text; on every catalog the search over empty text finds nothing. -/
theorem matcher_null_empty (catalog : List String) :
    find_throws_in_text_kano none catalog = [] ∧
    find_throws_in_text_kano (some "") catalog = [] ∧
    find_throws_in_text_chk (some "") catalog = some [] ∧
    find_throws_in_text "" catalog = [] := by
  have hempty : find_throws_in_text "" catalog = [] := by
    unfold find_throws_in_text
    rw [List.filter_eq_nil_iff]
    intro a _
    have : lowerChars "" = [] := rfl
    simp [this, regexWordSearch_nil]
  refine ⟨rfl, by simp [find_throws_in_text_kano], ?_, hempty⟩
  have hc : find_throws_in_text_chk (some "") catalog = some (find_throws_in_text "" catalog) := rfl
  rw [hc, hempty]

/-- Counterexample to C2 as stated: the checkduplicatedbentries variant
has no null guard, so a `None` text raises `AttributeError`
(`None.lower()`), modelled by `none`; it does not return the empty
result. -/
theorem matcher_none_raises : find_throws_in_text_chk none ["Uchi Mata"] = none := rfl

/-- C8 (amended): the matcher reports a matched name once per occurrence
of that name in the catalog: the multiplicity of `entry` in the result is
its multiplicity in the catalog when the text matches it as a whole word,
and zero otherwise. -/
theorem find_throws_count (text entry : String) (catalog : List String) :
    (find_throws_in_text text catalog).count entry =
      if regexWordSearch (lowerChars text) (lowerChars entry) = true
      then catalog.count entry else 0 := by
  unfold find_throws_in_text
  by_cases h : regexWordSearch (lowerChars text) (lowerChars entry) = true
  · rw [if_pos h]
    exact List.count_filter
      (show (fun throw => regexWordSearch (lowerChars text) (lowerChars throw)) entry = true from h)
  · rw [if_neg h, List.count_eq_zero]
    intro hmem
    exact h (List.mem_filter.mp hmem).2

/-- Counterexample to C8 as stated: a catalog holding the same name twice
reports a matching name twice, not exactly once. -/
theorem matcher_duplicates_cex :
    find_throws_in_text "o goshi" ["O Goshi", "O Goshi"] = ["O Goshi", "O Goshi"] := by decide

/-- C10: the matcher's result is a sublist of the catalog, for both the
checkduplicatedbentries and the kano variant: every reported name is a
catalog element, relative order is the catalog's, and each catalog
position contributes at most once. -/
theorem find_throws_sublist (text : String) (otext : Option String) (catalog : List String) :
    List.Sublist (find_throws_in_text text catalog) catalog ∧
    List.Sublist (find_throws_in_text_kano otext catalog) catalog := by
  constructor
  · exact List.filter_sublist _
  · cases otext with
    | none => exact List.nil_sublist _
    | some t =>
      unfold find_throws_in_text_kano
      by_cases h : t = ""
      · simp [h]
      · simp only [if_neg h]
        exact List.filter_sublist catalog

/-! ## Mention store and deduplication

The `mentions` table has columns `(id INTEGER PRIMARY KEY AUTOINCREMENT,
timestamp, type, post_id, url, throw_name)`; `id` aliases SQLite's
`rowid`, and autoincrement makes ids strictly increasing in insertion
order.  A store state is the list of rows in insertion order.  The dedup
passes run `DELETE FROM mentions WHERE rowid NOT IN (SELECT MIN(rowid)
FROM mentions GROUP BY <key>)`: a row survives exactly when its rowid is
one of the per-group minima. -/

/-- One row of the `mentions` table. -/
structure Mention where
  id : Nat
  timestamp : String
  type : String
  post_id : String
  url : String
  throw_name : String
deriving DecidableEq, Repr

/-- The `GROUP BY timestamp, post_id, throw_name` key of
`remove_exact_duplicates`. -/
def exactKey (m : Mention) : String × String × String :=
  (m.timestamp, m.post_id, m.throw_name)

/-- The `GROUP BY post_id, throw_name` key of `remove_soft_duplicates`. -/
def softKey (m : Mention) : String × String :=
  (m.post_id, m.throw_name)

/-- SQL `MIN` over a list of rowids. -/
def minId : List Nat → Option Nat
  | [] => none
  | a :: as =>
    some (match minId as with
      | none => a
      | some b => min a b)

/-- `SELECT MIN(rowid) FROM mentions GROUP BY key` evaluated at group
`k`: the least id among the rows whose key is `k`. -/
def groupMinId {K : Type} [DecidableEq K] (db : List Mention) (key : Mention → K)
    (k : K) : Option Nat :=
  minId ((db.filter (fun m => decide (key m = k))).map Mention.id)

/-- The `DELETE .. WHERE rowid NOT IN (SELECT MIN(rowid) .. GROUP BY key)`
statement: a row is kept exactly when its id equals the `MIN(rowid)` of
some group of the table. -/
def dedupBy {K : Type} [DecidableEq K] (db : List Mention) (key : Mention → K) :
    List Mention :=
  db.filter (fun m => db.any (fun w => decide (groupMinId db key (key w) = some m.id)))

/-- `remove_exact_duplicates` (deleteduplicates.py lines 3-22,
kano_judoscraper_implementation.py lines 232-264): delete every row whose
rowid is not the group minimum of `(timestamp, post_id, throw_name)`. -/
def remove_exact_duplicates (db : List Mention) : List Mention :=
  dedupBy db exactKey

/-- `remove_soft_duplicates` (deleteduplicates.py lines 24-43,
kano_judoscraper_implementation.py lines 266-298): delete every row whose
rowid is not the group minimum of `(post_id, throw_name)`. -/
def remove_soft_duplicates (db : List Mention) : List Mention :=
  dedupBy db softKey

/-- The removed-row count the kano variants report:
`before_count - after_count`. -/
def removedCount (db after : List Mention) : Nat := db.length - after.length

theorem minId_mem : ∀ {l : List Nat} {a : Nat}, minId l = some a → a ∈ l := by
  intro l
  induction l with
  | nil => intro a h; cases h
  | cons x xs ih =>
    intro a h
    unfold minId at h
    cases hm : minId xs with
    | none =>
      rw [hm] at h
      cases h
      exact List.mem_cons_self x xs
    | some b =>
      rw [hm] at h
      have : a = min x b := by cases h; rfl
      rcases Nat.le_total x b with hle | hle
      · rw [this, Nat.min_eq_left hle]
        exact List.mem_cons_self x xs
      · rw [this, Nat.min_eq_right hle]
        exact List.mem_cons_of_mem x (ih hm)

theorem minId_le : ∀ {l : List Nat} {a : Nat}, minId l = some a → ∀ b ∈ l, a ≤ b := by
  intro l
  induction l with
  | nil => intro a h; cases h
  | cons x xs ih =>
    intro a h b hb
    unfold minId at h
    cases hm : minId xs with
    | none =>
      rw [hm] at h
      cases h
      rcases List.mem_cons.mp hb with hbx | hbxs
      · exact Nat.le_of_eq hbx.symm
      · cases xs with
        | nil => cases hbxs
        | cons y ys => exact absurd hm (by unfold minId; cases minId ys <;> simp)
    | some c =>
      rw [hm] at h
      have ha : a = min x c := by cases h; rfl
      rcases List.mem_cons.mp hb with hbx | hbxs
      · rw [ha, hbx]; exact Nat.min_le_left x c
      · exact Nat.le_trans (ha ▸ Nat.min_le_right x c) (ih hm b hbxs)

theorem minId_eq_some {l : List Nat} {a : Nat} (hmem : a ∈ l) (hle : ∀ b ∈ l, a ≤ b) :
    minId l = some a := by
  cases hm : minId l with
  | none =>
    cases l with
    | nil => cases hmem
    | cons x xs => exact absurd hm (by unfold minId; cases minId xs <;> simp)
  | some c =>
    have hc : c ∈ _ := minId_mem hm
    have h1 : a ≤ c := hle c hc
    have h2 : c ≤ a := minId_le hm a hmem
    rw [Nat.le_antisymm h1 h2]

theorem minId_ne_none {l : List Nat} (h : l ≠ []) : minId l ≠ none := by
  cases l with
  | nil => exact absurd rfl h
  | cons a as => unfold minId; cases minId as <;> simp

section Dedup

variable {K : Type} [DecidableEq K]

/-- Strictly increasing rowids make the id map injective on rows. -/
theorem id_inj_of_pairwise {db : List Mention}
    (hsort : db.Pairwise (fun a b => a.id < b.id)) :
    ∀ x ∈ db, ∀ y ∈ db, x.id = y.id → x = y := by
  have hnd : (db.map Mention.id).Nodup :=
    List.pairwise_map.mpr (hsort.imp (fun h => Nat.ne_of_lt h))
  exact fun x hx y hy => List.inj_on_of_nodup_map hnd hx hy

theorem nodup_of_pairwise {db : List Mention}
    (hsort : db.Pairwise (fun a b => a.id < b.id)) : db.Nodup :=
  hsort.imp (fun h heq => absurd (heq ▸ h) (Nat.lt_irrefl _))

/-- With distinct rowids, the `NOT IN (SELECT MIN(rowid) .. GROUP BY ..)`
test reduces to: the row's own id is the minimum of its own group. -/
theorem dedupBy_eq_filter {db : List Mention} (key : Mention → K)
    (hinj : ∀ x ∈ db, ∀ y ∈ db, x.id = y.id → x = y) :
    dedupBy db key = db.filter (fun m => decide (groupMinId db key (key m) = some m.id)) := by
  unfold dedupBy
  apply List.filter_congr
  intro m hm
  cases hdec : decide (groupMinId db key (key m) = some m.id) with
  | true =>
    exact List.any_eq_true.mpr ⟨m, hm, hdec⟩
  | false =>
    have hg := of_decide_eq_false hdec
    rw [List.any_eq_false]
    intro w hw hdw
    have hgw : groupMinId db key (key w) = some m.id := of_decide_eq_true hdw
    have hmem : m.id ∈ (db.filter (fun x => decide (key x = key w))).map Mention.id :=
      minId_mem hgw
    obtain ⟨x, hx, hxid⟩ := List.mem_map.mp hmem
    have hxdb : x ∈ db := (List.mem_filter.mp hx).1
    have hxkey : key x = key w := of_decide_eq_true (List.mem_filter.mp hx).2
    have hxm : x = m := hinj x hxdb m hm hxid
    have hmk : key m = key w := by rw [← hxm]; exact hxkey
    exact hg (by rw [hmk]; exact hgw)

theorem mem_dedupBy {db : List Mention} (key : Mention → K)
    (hinj : ∀ x ∈ db, ∀ y ∈ db, x.id = y.id → x = y)
    {m : Mention} :
    m ∈ dedupBy db key ↔ m ∈ db ∧ groupMinId db key (key m) = some m.id := by
  rw [dedupBy_eq_filter key hinj, List.mem_filter, decide_eq_true_eq]

/-- Every group that occurs in the table has a row achieving its
`MIN(rowid)`. -/
theorem groupMin_exists {db : List Mention} (key : Mention → K) {m : Mention} (hm : m ∈ db) :
    ∃ m0 ∈ db, key m0 = key m ∧ groupMinId db key (key m) = some m0.id := by
  have hmem : m.id ∈ (db.filter (fun x => decide (key x = key m))).map Mention.id :=
    List.mem_map.mpr ⟨m, List.mem_filter.mpr ⟨hm, decide_eq_true rfl⟩, rfl⟩
  cases hmin : minId ((db.filter (fun x => decide (key x = key m))).map Mention.id) with
  | none => exact absurd hmin (minId_ne_none (List.ne_nil_of_mem hmem))
  | some v =>
    obtain ⟨m0, h0, h0id⟩ := List.mem_map.mp (minId_mem hmin)
    refine ⟨m0, (List.mem_filter.mp h0).1, of_decide_eq_true (List.mem_filter.mp h0).2, ?_⟩
    unfold groupMinId
    rw [hmin, h0id]

theorem filter_eq_singleton {α : Type} {l : List α} {p : α → Bool} {a : α}
    (hnd : l.Nodup) (ha : a ∈ l) (hpa : p a = true)
    (huniq : ∀ b ∈ l, p b = true → b = a) :
    l.filter p = [a] := by
  induction l with
  | nil => cases ha
  | cons x xs ih =>
    have hx_notin : x ∈ xs → False := fun hmem => (List.nodup_cons.mp hnd).1 hmem
    rcases List.mem_cons.mp ha with hax | haxs
    · subst hax
    -- a is the head; nothing in the tail satisfies p
      rw [List.filter_cons, if_pos hpa]
      have htail : xs.filter p = [] := by
        rw [List.filter_eq_nil_iff]
        intro b hb hpb
        exact hx_notin ((huniq b (List.mem_cons_of_mem _ hb) hpb) ▸ hb)
      rw [htail]
    · have hpx : p x = false := by
        cases hpx : p x with
        | false => rfl
        | true =>
          have := huniq x (List.mem_cons_self x xs) hpx
          exact absurd (this ▸ haxs) hx_notin
      rw [List.filter_cons, if_neg (by rw [hpx]; exact Bool.false_ne_true)]
      exact ih (List.nodup_cons.mp hnd).2 haxs
        (fun b hb hpb => huniq b (List.mem_cons_of_mem _ hb) hpb)

/-- The four facts of C3 for one grouping key: the dedup pass keeps a
sublist of the table; each occurring group retains exactly one row; every
surviving row is the minimal-id (earliest-inserted) row of its group; and
every minimal-id row survives. -/
theorem dedupBy_spec {db : List Mention} (key : Mention → K)
    (hsort : db.Pairwise (fun a b => a.id < b.id)) :
    List.Sublist (dedupBy db key) db ∧
    (∀ m ∈ db, ((dedupBy db key).filter (fun x => decide (key x = key m))).length = 1) ∧
    (∀ m ∈ dedupBy db key, groupMinId db key (key m) = some m.id) ∧
    (∀ m ∈ db, groupMinId db key (key m) = some m.id → m ∈ dedupBy db key) := by
  have hinj := id_inj_of_pairwise hsort
  have hsub : List.Sublist (dedupBy db key) db := by
    rw [dedupBy_eq_filter key hinj]
    exact List.filter_sublist db
  have hmin : ∀ m ∈ dedupBy db key, groupMinId db key (key m) = some m.id :=
    fun m hm => ((mem_dedupBy key hinj).mp hm).2
  have hkeep : ∀ m ∈ db, groupMinId db key (key m) = some m.id → m ∈ dedupBy db key :=
    fun m hm hg => (mem_dedupBy key hinj).mpr ⟨hm, hg⟩
  refine ⟨hsub, ?_, hmin, hkeep⟩
  intro m hm
  obtain ⟨m0, h0db, h0key, h0min⟩ := groupMin_exists key hm
  have h0mem : m0 ∈ dedupBy db key :=
    hkeep m0 h0db (by rw [h0key]; exact h0min)
  have hone : (dedupBy db key).filter (fun x => decide (key x = key m)) = [m0] := by
    refine filter_eq_singleton (hsub.nodup (nodup_of_pairwise hsort)) h0mem
      (decide_eq_true h0key) ?_
    intro b hb hpb
    have hbkey : key b = key m := of_decide_eq_true hpb
    have hbmin := hmin b hb
    rw [hbkey, h0min] at hbmin
    exact hinj b (hsub.subset hb) m0 h0db (Option.some.inj hbmin.symm)
  rw [hone]
  rfl

theorem groupMinId_le {db : List Mention} {key : Mention → K} {k : K} {a : Nat}
    (h : groupMinId db key k = some a) {x : Mention} (hx : x ∈ db) (hk : key x = k) :
    a ≤ x.id := by
  unfold groupMinId at h
  exact minId_le h x.id (List.mem_map.mpr ⟨x, List.mem_filter.mpr ⟨hx, decide_eq_true hk⟩, rfl⟩)

theorem groupMinId_eq {db : List Mention} {key : Mention → K} {m : Mention} (hm : m ∈ db)
    (hle : ∀ x ∈ db, key x = key m → m.id ≤ x.id) :
    groupMinId db key (key m) = some m.id := by
  unfold groupMinId
  apply minId_eq_some
  · exact List.mem_map.mpr ⟨m, List.mem_filter.mpr ⟨hm, decide_eq_true rfl⟩, rfl⟩
  · intro b hb
    obtain ⟨x, hx, hxid⟩ := List.mem_map.mp hb
    exact hxid ▸ hle x (List.mem_filter.mp hx).1 (of_decide_eq_true (List.mem_filter.mp hx).2)

end Dedup

/-- Rows agreeing on the exact key `(timestamp, post_id, throw_name)`
agree on the soft key `(post_id, throw_name)`. -/
theorem exactKey_eq_imp_softKey {x y : Mention} (h : exactKey x = exactKey y) :
    softKey x = softKey y := by
  unfold exactKey at h
  unfold softKey
  have h2 : x.post_id = y.post_id := congrArg (fun p => p.2.1) h
  have h3 : x.throw_name = y.throw_name := congrArg (fun p => p.2.2) h
  rw [h2, h3]

/-- The earliest row of a soft group is also the earliest row of its own
exact group (the exact group is contained in the soft group). -/
theorem softMin_exactMin {db : List Mention} {m : Mention} (hm : m ∈ db)
    (hs : groupMinId db softKey (softKey m) = some m.id) :
    groupMinId db exactKey (exactKey m) = some m.id :=
  groupMinId_eq hm (fun _ hx hk => groupMinId_le hs hx (exactKey_eq_imp_softKey hk))

/-- C3: with strictly increasing rowids (insertion order), each dedup
pass keeps a sublist of the store; after `remove_exact_duplicates`
exactly one row remains per occurring `(timestamp, post_id, throw_name)`
group and every surviving row is the minimal-rowid (earliest-inserted)
row of its group, rows that are minimal are never removed; and the same
holds for `remove_soft_duplicates` with the `(post_id, throw_name)`
group. -/
theorem dedup_keeps_earliest (db : List Mention)
    (hsort : db.Pairwise (fun a b => a.id < b.id)) :
    (List.Sublist (remove_exact_duplicates db) db ∧
      (∀ m ∈ db, ((remove_exact_duplicates db).filter
        (fun x => decide (exactKey x = exactKey m))).length = 1) ∧
      (∀ m ∈ remove_exact_duplicates db, groupMinId db exactKey (exactKey m) = some m.id) ∧
      (∀ m ∈ db, groupMinId db exactKey (exactKey m) = some m.id →
        m ∈ remove_exact_duplicates db)) ∧
    (List.Sublist (remove_soft_duplicates db) db ∧
      (∀ m ∈ db, ((remove_soft_duplicates db).filter
        (fun x => decide (softKey x = softKey m))).length = 1) ∧
      (∀ m ∈ remove_soft_duplicates db, groupMinId db softKey (softKey m) = some m.id) ∧
      (∀ m ∈ db, groupMinId db softKey (softKey m) = some m.id →
        m ∈ remove_soft_duplicates db)) :=
  ⟨dedupBy_spec exactKey hsort, dedupBy_spec softKey hsort⟩

/-- A concrete store: rows 1 and 2 are exact duplicates, row 3 is a soft
duplicate of them (same post and throw, later scrape time), row 4 is
unrelated. -/
def dbW : List Mention :=
  [⟨1, "2025-01-01 10:00:00", "comment", "p1", "u1", "Uchi Mata"⟩,
   ⟨2, "2025-01-01 10:00:00", "comment", "p1", "u1", "Uchi Mata"⟩,
   ⟨3, "2025-01-02 11:00:00", "comment", "p1", "u1", "Uchi Mata"⟩,
   ⟨4, "2025-01-03 12:00:00", "submission", "p2", "u2", "O Goshi"⟩]

/-- Witness for C3 on the concrete store `dbW`. -/
theorem dedup_keeps_earliest_witness :
    dbW.Pairwise (fun a b => a.id < b.id) ∧
    List.Sublist (remove_exact_duplicates dbW) dbW ∧
    List.Sublist (remove_soft_duplicates dbW) dbW :=
  ⟨by decide, (dedup_keeps_earliest dbW (by decide)).1.1,
    (dedup_keeps_earliest dbW (by decide)).2.1⟩

/-- C4: running `remove_exact_duplicates` and then
`remove_soft_duplicates` leaves the store exactly as running
`remove_soft_duplicates` alone. -/
theorem dedup_soft_absorbs_exact (db : List Mention)
    (hsort : db.Pairwise (fun a b => a.id < b.id)) :
    remove_soft_duplicates (remove_exact_duplicates db) = remove_soft_duplicates db := by
  have hinj := id_inj_of_pairwise hsort
  have hspecE := dedupBy_spec exactKey hsort
  have hsubE : List.Sublist (dedupBy db exactKey) db := hspecE.1
  have hsortE := hsort.sublist hsubE
  have hinjE := id_inj_of_pairwise hsortE
  show dedupBy (dedupBy db exactKey) softKey = dedupBy db softKey
  rw [dedupBy_eq_filter softKey hinjE, dedupBy_eq_filter softKey hinj,
    dedupBy_eq_filter exactKey hinj, List.filter_filter]
  apply List.filter_congr
  intro m hm
  rw [← dedupBy_eq_filter exactKey hinj]
  by_cases hs : groupMinId db softKey (softKey m) = some m.id
  · have hpe : groupMinId db exactKey (exactKey m) = some m.id := softMin_exactMin hm hs
    have hmE : m ∈ dedupBy db exactKey := (mem_dedupBy exactKey hinj).mpr ⟨hm, hpe⟩
    have hsE : groupMinId (dedupBy db exactKey) softKey (softKey m) = some m.id :=
      groupMinId_eq hmE (fun x hx hk => groupMinId_le hs (hsubE.subset hx) hk)
    rw [decide_eq_true hs, decide_eq_true hpe, decide_eq_true hsE]
    rfl
  · rw [decide_eq_false hs]
    cases hSE : decide (groupMinId (dedupBy db exactKey) softKey (softKey m) = some m.id) with
    | false => rfl
    | true =>
      cases hPE : decide (groupMinId db exactKey (exactKey m) = some m.id) with
      | false => rfl
      | true =>
        exfalso
        apply hs
        have hpe := of_decide_eq_true hPE
        have hse := of_decide_eq_true hSE
        obtain ⟨r, hrdb, hrkey, hrmin⟩ := groupMin_exists softKey hm
        have hrmin' : groupMinId db softKey (softKey r) = some r.id := by
          rw [hrkey]; exact hrmin
        have hrpe : groupMinId db exactKey (exactKey r) = some r.id :=
          softMin_exactMin hrdb hrmin'
        have hrE : r ∈ dedupBy db exactKey := (mem_dedupBy exactKey hinj).mpr ⟨hrdb, hrpe⟩
        have h1 : m.id ≤ r.id := groupMinId_le hse hrE hrkey
        have h2 : r.id ≤ m.id := groupMinId_le hrmin hm rfl
        rw [hrmin]
        rw [Nat.le_antisymm h2 h1]

/-- Witness for C4 on the concrete store `dbW`. -/
theorem dedup_soft_absorbs_exact_witness :
    remove_soft_duplicates (remove_exact_duplicates dbW) = remove_soft_duplicates dbW :=
  dedup_soft_absorbs_exact dbW (by decide)

theorem dedupBy_idempotent {K : Type} [DecidableEq K] {db : List Mention} (key : Mention → K)
    (hsort : db.Pairwise (fun a b => a.id < b.id)) :
    dedupBy (dedupBy db key) key = dedupBy db key := by
  have hspec := dedupBy_spec key hsort
  have hsubD := hspec.1
  have hsortD := hsort.sublist hsubD
  have hinjD := id_inj_of_pairwise hsortD
  rw [dedupBy_eq_filter key hinjD]
  apply List.filter_eq_self.mpr
  intro m hm
  apply decide_eq_true
  apply groupMinId_eq hm
  intro x hx hk
  have hxmin := hspec.2.2.1 x hx
  have hmmin := hspec.2.2.1 m hm
  rw [hk, hmmin] at hxmin
  exact Nat.le_of_eq (Option.some.inj hxmin)

/-- C5: both dedup passes are idempotent: a second consecutive call
returns the store unchanged and removes zero rows. -/
theorem dedup_idempotent (db : List Mention)
    (hsort : db.Pairwise (fun a b => a.id < b.id)) :
    remove_exact_duplicates (remove_exact_duplicates db) = remove_exact_duplicates db ∧
    removedCount (remove_exact_duplicates db)
      (remove_exact_duplicates (remove_exact_duplicates db)) = 0 ∧
    remove_soft_duplicates (remove_soft_duplicates db) = remove_soft_duplicates db ∧
    removedCount (remove_soft_duplicates db)
      (remove_soft_duplicates (remove_soft_duplicates db)) = 0 := by
  have h1 := dedupBy_idempotent exactKey hsort
  have h2 := dedupBy_idempotent softKey hsort
  refine ⟨h1, ?_, h2, ?_⟩
  · unfold removedCount
    rw [show remove_exact_duplicates (remove_exact_duplicates db)
        = remove_exact_duplicates db from h1]
    exact Nat.sub_self _
  · unfold removedCount
    rw [show remove_soft_duplicates (remove_soft_duplicates db)
        = remove_soft_duplicates db from h2]
    exact Nat.sub_self _

/-- Witness for C5 on the concrete store `dbW`. -/
theorem dedup_idempotent_witness :
    remove_exact_duplicates (remove_exact_duplicates dbW) = remove_exact_duplicates dbW ∧
    remove_soft_duplicates (remove_soft_duplicates dbW) = remove_soft_duplicates dbW :=
  ⟨(dedup_idempotent dbW (by decide)).1, (dedup_idempotent dbW (by decide)).2.2.1⟩

/-! ## Timestamp repair

`fix_future_timestamps` (kano_judoscraper_implementation.py lines
344-366) runs `UPDATE mentions SET timestamp = ? WHERE timestamp > ?`
with the current time string.  SQLite compares TEXT values bytewise; on
the stored `"YYYY-MM-DD HH:MM:SS"` alphabet this is plain lexicographic
character order, modelled by `charListLt`. -/

/-- Lexicographic strict order on character lists (SQLite TEXT `>` is
`tsLt` with the arguments flipped). -/
def charListLt : List Char → List Char → Bool
  | [], [] => false
  | [], _ :: _ => true
  | _ :: _, [] => false
  | a :: as, b :: bs => if a < b then true else if b < a then false else charListLt as bs

/-- `a < b` on timestamp strings. -/
def tsLt (a b : String) : Bool := charListLt a.toList b.toList

/-- `fix_future_timestamps`: every row whose timestamp is later than
`now` has its timestamp set to `now`; all other rows pass through. -/
def fix_future_timestamps (db : List Mention) (now : String) : List Mention :=
  db.map (fun m => if tsLt now m.timestamp = true then { m with timestamp := now } else m)

/-- The `cursor.rowcount` the function returns: how many rows the
`UPDATE` touched. -/
def fixedCount (db : List Mention) (now : String) : Nat :=
  (db.filter (fun m => tsLt now m.timestamp)).length

/-- Padding row for positional indexing. -/
def defaultMention : Mention := ⟨0, "", "", "", "", ""⟩

theorem charListLt_irrefl : ∀ l : List Char, charListLt l l = false := by
  intro l
  induction l with
  | nil => rfl
  | cons a as ih =>
    unfold charListLt
    rw [if_neg (lt_irrefl a), if_neg (lt_irrefl a)]
    exact ih

theorem tsLt_irrefl (s : String) : tsLt s s = false := charListLt_irrefl _

theorem tsLt_empty (s : String) : tsLt s "" = false := by
  unfold tsLt
  show charListLt s.toList [] = false
  cases s.toList with
  | nil => rfl
  | cons a as => rfl

/-- C9: the future-timestamp fix preserves the number of rows, rewrites
exactly the rows whose timestamp is later than `now` (to timestamp
`now`, all other fields kept) and leaves every other row unchanged, and
afterwards no row's timestamp exceeds `now`. -/
theorem fix_future_timestamps_spec (db : List Mention) (now : String) :
    (fix_future_timestamps db now).length = db.length ∧
    (∀ i : Nat, (fix_future_timestamps db now).getD i defaultMention =
      (if tsLt now ((db.getD i defaultMention).timestamp) = true
        then { db.getD i defaultMention with timestamp := now }
        else db.getD i defaultMention)) ∧
    (∀ m ∈ fix_future_timestamps db now, tsLt now m.timestamp = false) := by
  refine ⟨List.length_map db _, ?_, ?_⟩
  · intro i
    induction db generalizing i with
    | nil =>
      have hl : (fix_future_timestamps [] now).getD i defaultMention = defaultMention := rfl
      have hr : ([] : List Mention).getD i defaultMention = defaultMention := rfl
      rw [hl, hr, show defaultMention.timestamp = "" from rfl, tsLt_empty]
      simp
    | cons x xs ih =>
      cases i with
      | zero => rfl
      | succ j => exact ih j
  · intro m hm
    obtain ⟨x, hx, hxm⟩ := List.mem_map.mp hm
    by_cases h : tsLt now x.timestamp = true
    · rw [← hxm, if_pos h]
      exact tsLt_irrefl now
    · rw [← hxm, if_neg h]
      exact Bool.eq_false_iff.mpr h

/-! ## Time-series aggregation

`plot_mentions_over_time` reads `(timestamp, throw_name)` rows, keeps the
top throws, converts each timestamp to its calendar month, groups by
`(month, throw_name)` with counts, and pivots to a month-indexed frame
with `fillna(0)`.  The checkduplicatedbentries variant (lines 264-284)
additionally reindexes the pivot onto `pd.date_range(min, max,
freq="MS")` with `fill_value=0`; the kano variant (lines 490-495) does
not.  Months are encoded as `year * 12 + (month - 1)`; the selected
(top-n) throws are a parameter `sel`. -/

/-- The numeric value of a decimal digit character. -/
def digitVal (c : Char) : Option Nat :=
  if c.isDigit then some (c.toNat - 48) else none

/-- `pd.to_datetime(ts, errors="coerce")` followed by `.to_period("M")`,
at month granularity: parse a `"YYYY-MM..."` prefix into
`year * 12 + (month - 1)`; anything unparsable is `none` (NaT), and such
rows are dropped by the groupby. -/
def monthOf (ts : String) : Option Nat :=
  match ts.toList with
  | y1 :: y2 :: y3 :: y4 :: '-' :: m1 :: m2 :: _ =>
    match digitVal y1, digitVal y2, digitVal y3, digitVal y4, digitVal m1, digitVal m2 with
    | some a, some b, some c, some d, some e, some f =>
      let y := ((a * 10 + b) * 10 + c) * 10 + d
      let mo := e * 10 + f
      if 1 ≤ mo ∧ mo ≤ 12 then some (y * 12 + (mo - 1)) else none
    | _, _, _, _, _, _ => none
  | _ => none

/-- The `df_top` frame with its month column: rows of selected throws
with a parsable timestamp, as `(month, throw_name)` pairs. -/
def selEvents (db : List Mention) (sel : List String) : List (Nat × String) :=
  db.filterMap (fun m =>
    if m.throw_name ∈ sel then (monthOf m.timestamp).map (fun mo => (mo, m.throw_name))
    else none)

/-- `groupby(["month", "throw_name"]).size()`: one entry per distinct
`(month, throw)` key with its count. -/
def groupedCounts (pairs : List (Nat × String)) : List ((Nat × String) × Nat) :=
  pairs.dedup.map (fun k => (k, (pairs.filter (fun q => decide (q = k))).length))

/-- A cell of the pivot after `fillna(0)` / `reindex(fill_value=0)`: the
count stored for `(month, throw)`, or 0 when that group is absent. -/
def pivotVal (g : List ((Nat × String) × Nat)) (mo : Nat) (t : String) : Nat :=
  match g.find? (fun e => decide (e.1 = (mo, t))) with
  | some e => e.2
  | none => 0

/-- SQL/pandas `max` over a list. -/
def maxNat : List Nat → Option Nat
  | [] => none
  | a :: as =>
    some (match maxNat as with
      | none => a
      | some b => max a b)

/-- checkduplicatedbentries month axis: `pd.date_range(index.min(),
index.max(), freq="MS")` — every month from the earliest to the latest
selected event, inclusive. -/
def monthAxis_chk (pairs : List (Nat × String)) : List Nat :=
  match minId (pairs.map Prod.fst), maxNat (pairs.map Prod.fst) with
  | some lo, some hi => List.range' lo (hi - lo + 1)
  | _, _ => []

/-- kano month axis: the pivot index after `sort_index()` — only the
months with at least one selected event; no reindexing. -/
def monthAxis_kano (pairs : List (Nat × String)) : List Nat :=
  (pairs.map Prod.fst).dedup

/-- The monthly series of throw `t` produced by checkduplicatedbentries'
`plot_mentions_over_time` (before the capping step). -/
def series_chk (db : List Mention) (sel : List String) (t : String) : List (Nat × Nat) :=
  (monthAxis_chk (selEvents db sel)).map
    (fun mo => (mo, pivotVal (groupedCounts (selEvents db sel)) mo t))

/-- The monthly series of throw `t` produced by kano's
`plot_mentions_over_time` (raw counts, `normalize=false`). -/
def series_kano (db : List Mention) (sel : List String) (t : String) : List (Nat × Nat) :=
  (monthAxis_kano (selEvents db sel)).map
    (fun mo => (mo, pivotVal (groupedCounts (selEvents db sel)) mo t))

theorem find?_keyed_map {α β : Type} [DecidableEq α] {l : List α} (f : α → β) {k : α}
    (hnd : l.Nodup) (hk : k ∈ l) :
    (l.map (fun x => (x, f x))).find? (fun e => decide (e.1 = k)) = some (k, f k) := by
  induction l with
  | nil => cases hk
  | cons a as ih =>
    rcases List.mem_cons.mp hk with hka | hkas
    · subst hka
      rw [List.map_cons]
      exact List.find?_cons_of_pos _ (by simp)
    · have hne : a ≠ k := fun he => (List.nodup_cons.mp hnd).1 (he ▸ hkas)
      rw [List.map_cons]
      rw [List.find?_cons_of_neg _ (by simpa using hne)]
      exact ih (List.nodup_cons.mp hnd).2 hkas

/-- The pivot cell at `(mo, t)` is exactly the raw number of selected
events of throw `t` in month `mo` — in particular 0 when there are
none. -/
theorem pivotVal_eq_count (pairs : List (Nat × String)) (mo : Nat) (t : String) :
    pivotVal (groupedCounts pairs) mo t =
      (pairs.filter (fun q => decide (q = (mo, t)))).length := by
  unfold pivotVal groupedCounts
  by_cases hmem : (mo, t) ∈ pairs
  · rw [find?_keyed_map _ (List.nodup_dedup pairs) (List.mem_dedup.mpr hmem)]
  · have hnone : (pairs.dedup.map
        (fun k => (k, (pairs.filter (fun q => decide (q = k))).length))).find?
        (fun e => decide (e.1 = (mo, t))) = none := by
      rw [List.find?_eq_none]
      intro e he hdec
      obtain ⟨k, hkd, hke⟩ := List.mem_map.mp he
      have : k = (mo, t) := by
        have := of_decide_eq_true hdec
        rw [← hke] at this
        exact this
      exact hmem (this ▸ List.mem_dedup.mp hkd)
    rw [hnone]
    have : pairs.filter (fun q => decide (q = (mo, t))) = [] := by
      rw [List.filter_eq_nil_iff]
      intro q hq hdec
      exact hmem (of_decide_eq_true hdec ▸ hq)
    rw [this]
    rfl

/-- C6 (amended, for the checkduplicatedbentries aggregator): when the
selected events are nonempty, with `lo`/`hi` their earliest and latest
month, every throw's series carries a value for every month `mo` in
`[lo, hi]`, and that value is the raw event count of `(mo, t)` — 0 for a
month with no events of that throw. -/
theorem series_chk_dense (db : List Mention) (sel : List String) (t : String)
    (lo hi : Nat)
    (hlo : minId ((selEvents db sel).map Prod.fst) = some lo)
    (hhi : maxNat ((selEvents db sel).map Prod.fst) = some hi)
    (mo : Nat) (h1 : lo ≤ mo) (h2 : mo ≤ hi) :
    (mo, ((selEvents db sel).filter (fun q => decide (q = (mo, t)))).length)
      ∈ series_chk db sel t := by
  unfold series_chk monthAxis_chk
  rw [hlo, hhi, ← pivotVal_eq_count]
  apply List.mem_map.mpr
  refine ⟨mo, ?_, rfl⟩
  rw [List.mem_range'_1]
  exact ⟨h1, by omega⟩

/-- Two mentions of throw "A", one in 2024-01 (month 24288) and one in
2024-03 (month 24290); nothing in 2024-02 (month 24289). -/
def dbC6 : List Mention :=
  [⟨1, "2024-01-05 10:00:00", "comment", "p1", "u1", "A"⟩,
   ⟨2, "2024-03-06 11:00:00", "comment", "p2", "u2", "A"⟩]

/-- Witness for C6: the February bucket (month 24289) is present in the
dense series with count 0. -/
theorem series_chk_dense_witness :
    (24289, ((selEvents dbC6 ["A"]).filter
      (fun q => decide (q = (24289, "A")))).length) ∈ series_chk dbC6 ["A"] "A" :=
  series_chk_dense dbC6 ["A"] "A" 24288 24290 (by decide) (by decide) 24289
    (by decide) (by decide)

/-- Counterexample to C6 as stated: the kano aggregator (also cited by
the claim) has no reindex step, so with selected events only in 2024-01
and 2024-03 its axis skips 2024-02: the series carries no value at all
for that month, though it lies between the earliest and latest month. -/
theorem series_kano_gap_cex :
    selEvents dbC6 ["A"] ≠ [] ∧
    minId ((selEvents dbC6 ["A"]).map Prod.fst) = some 24288 ∧
    maxNat ((selEvents dbC6 ["A"]).map Prod.fst) = some 24290 ∧
    series_kano dbC6 ["A"] "A" = [(24288, 1), (24290, 1)] :=
  ⟨by decide, by decide, by decide, by decide⟩

/-! ## Outlier capping

The truncation loop of checkduplicatedbentries' `plot_mentions_over_time`
(lines 288-296), per throw column: `mean_val = col.mean()`, `std_val =
col.std()` (pandas default `ddof=1`, i.e. the sample standard deviation,
squared deviations divided by `n - 1`), and, when `std_val > 0`,
`cap = mean_val + 1 * std_val` with every value above `cap` set to
`cap`.  Counts are modelled as exact rationals and the standard
deviation as a real square root.  For `n = 1` pandas yields NaN (and the
`std > 0` test fails); in exact arithmetic the division by `n - 1 = 0`
yields 0, and the `std > 0` test fails the same way. -/

/-- `col.mean()`. -/
def colMean (l : List ℚ) : ℚ := l.sum / (l.length : ℚ)

/-- `col.std()` squared: sample variance with `ddof = 1`. -/
def sampleVar (l : List ℚ) : ℚ :=
  (l.map (fun x => (x - colMean l) ^ 2)).sum / ((l.length : ℚ) - 1)

/-- `col.std()`. -/
noncomputable def sampleStd (l : List ℚ) : ℝ := Real.sqrt ((sampleVar l : ℝ))

/-- The claim's "population standard deviation" squared: squared
deviations divided by `n`.  Stated from the spec's words for comparison
only; the code's pandas call uses the sample form above. -/
def popVar (l : List ℚ) : ℚ :=
  (l.map (fun x => (x - colMean l) ^ 2)).sum / (l.length : ℚ)

/-- The claim's population standard deviation. -/
noncomputable def popStd (l : List ℚ) : ℝ := Real.sqrt ((popVar l : ℝ))

/-- `cap = mean_val + 1 * std_val` (line 294). -/
noncomputable def capThreshold (l : List ℚ) : ℝ := (colMean l : ℝ) + 1 * sampleStd l

/-- The capping loop on one throw's monthly column: when `std > 0`,
every value above the cap is replaced by the cap; otherwise the column
is left as it is. -/
noncomputable def capSeries (l : List ℚ) : List ℝ :=
  if 0 < sampleStd l then
    l.map (fun x => if capThreshold l < ((x : ℚ) : ℝ) then capThreshold l else ((x : ℚ) : ℝ))
  else l.map (fun x => ((x : ℚ) : ℝ))

theorem getD_map_lt {α β : Type} (f : α → β) (l : List α) (i : Nat) (h : i < l.length)
    (d : α) (e : β) : (l.map f).getD i e = f (l.getD i d) := by
  rw [List.getD_eq_getElem?_getD, List.getD_eq_getElem?_getD, List.getElem?_map,
    List.getElem?_eq_getElem h]
  rfl

/-- C7 (amended): per column, with the code's sample (`ddof=1`) standard
deviation: when `std = 0` every month keeps its raw value; a month whose
raw count exceeds `mean + 1 * std` is replaced by exactly `mean + 1 *
std`; a month whose raw count is at most the cap keeps its raw value;
and every capped value is at most `max raw (mean + 1 * std)`. -/
theorem capSeries_spec (l : List ℚ) (i : Nat) (hi : i < l.length) :
    (sampleStd l = 0 → (capSeries l).getD i 0 = ((l.getD i 0 : ℚ) : ℝ)) ∧
    (capThreshold l < ((l.getD i 0 : ℚ) : ℝ) → 0 < sampleStd l →
      (capSeries l).getD i 0 = capThreshold l) ∧
    (((l.getD i 0 : ℚ) : ℝ) ≤ capThreshold l →
      (capSeries l).getD i 0 = ((l.getD i 0 : ℚ) : ℝ)) ∧
    (capSeries l).getD i 0 ≤ max ((l.getD i 0 : ℚ) : ℝ) (capThreshold l) := by
  have hnn : (0 : ℝ) ≤ sampleStd l := Real.sqrt_nonneg _
  by_cases hpos : 0 < sampleStd l
  · have hc : capSeries l =
        l.map (fun x => if capThreshold l < ((x : ℚ) : ℝ) then capThreshold l
          else ((x : ℚ) : ℝ)) := by
      unfold capSeries
      rw [if_pos hpos]
    have hg : (capSeries l).getD i 0 =
        (if capThreshold l < ((l.getD i 0 : ℚ) : ℝ) then capThreshold l
         else ((l.getD i 0 : ℚ) : ℝ)) := by
      rw [hc]
      exact getD_map_lt _ l i hi 0 0
    refine ⟨fun h0 => absurd h0 (ne_of_gt hpos), fun hlt _ => ?_, fun hle => ?_, ?_⟩
    · rw [hg, if_pos hlt]
    · rw [hg, if_neg (not_lt.mpr hle)]
    · rw [hg]
      by_cases hlt : capThreshold l < ((l.getD i 0 : ℚ) : ℝ)
      · rw [if_pos hlt]
        exact le_max_right _ _
      · rw [if_neg hlt]
        exact le_max_left _ _
  · have hc : capSeries l = l.map (fun x => ((x : ℚ) : ℝ)) := by
      unfold capSeries
      rw [if_neg hpos]
    have hg : (capSeries l).getD i 0 = ((l.getD i 0 : ℚ) : ℝ) := by
      rw [hc]
      exact getD_map_lt _ l i hi 0 0
    refine ⟨fun _ => hg, fun _ hpos2 => absurd hpos2 hpos, fun _ => hg, ?_⟩
    rw [hg]
    exact le_max_left _ _

/-- The column [0, 0, 0, 8]: mean 2, sample variance 48/3 = 16, sample
std 4, cap 6; population variance 48/4 = 12, population std √12. -/
def capCol : List ℚ := [0, 0, 0, 8]

theorem sampleVar_capCol : sampleVar capCol = 16 := by
  unfold sampleVar colMean capCol
  norm_num

theorem sampleStd_capCol : sampleStd capCol = 4 := by
  unfold sampleStd
  rw [sampleVar_capCol, show (((16 : ℚ) : ℝ)) = (4 : ℝ) ^ 2 by norm_num]
  exact Real.sqrt_sq (by norm_num)

theorem capThreshold_capCol : capThreshold capCol = 6 := by
  unfold capThreshold
  rw [sampleStd_capCol]
  rw [show colMean capCol = 2 by unfold colMean capCol; norm_num]
  norm_num

/-- Witness for C7 on the column [0, 0, 0, 8]: the month with raw count
8 exceeds the cap 6 and is replaced by it; a month at or below the cap
keeps its raw count 0. -/
theorem capSeries_spec_witness :
    (capSeries capCol).getD 3 0 = capThreshold capCol ∧
    (capSeries capCol).getD 0 0 = ((capCol.getD 0 0 : ℚ) : ℝ) := by
  constructor
  · apply (capSeries_spec capCol 3 (by norm_num [capCol])).2.1
    · rw [capThreshold_capCol, show capCol.getD 3 0 = 8 from rfl]
      norm_num
    · rw [sampleStd_capCol]
      norm_num
  · apply (capSeries_spec capCol 0 (by norm_num [capCol])).2.2.1
    rw [capThreshold_capCol, show capCol.getD 0 0 = 0 from rfl]
    norm_num

/-- Counterexample to C7 as stated: on the column [0, 0, 0, 8] the
population standard deviation is √12 and the claim's cap is 2 + √12 < 8,
so the claim requires the capped value of the last month to be exactly
2 + √12; the code uses the sample standard deviation and produces 6,
and 6 ≠ 2 + √12. -/
theorem cap_population_cex :
    (colMean capCol : ℝ) + 1 * popStd capCol < ((8 : ℚ) : ℝ) ∧
    (capSeries capCol).getD 3 0 ≠ (colMean capCol : ℝ) + 1 * popStd capCol := by
  have hmean : ((colMean capCol : ℚ) : ℝ) = 2 := by
    rw [show colMean capCol = 2 by unfold colMean capCol; norm_num]
    norm_num
  have hpv : popVar capCol = 12 := by
    unfold popVar colMean capCol
    norm_num
  have hps : popStd capCol = Real.sqrt 12 := by
    unfold popStd
    rw [hpv]
    norm_num
  have hsqrt_lt : Real.sqrt 12 < 6 := by
    rw [Real.sqrt_lt' (by norm_num : (0 : ℝ) < 6)]
    norm_num
  have hcap : (capSeries capCol).getD 3 0 = 6 := by
    unfold capSeries
    rw [if_pos (by rw [sampleStd_capCol]; norm_num)]
    rw [getD_map_lt _ capCol 3 (by norm_num [capCol]) 0 0]
    rw [if_pos (by rw [capThreshold_capCol, show capCol.getD 3 0 = 8 from rfl]; norm_num)]
    exact capThreshold_capCol
  constructor
  · rw [hmean, hps]
    push_cast
    linarith
  · rw [hcap, hmean, hps]
    intro heq
    have h4 : Real.sqrt 12 = 4 := by linarith
    have hsq := Real.sq_sqrt (by norm_num : (0 : ℝ) ≤ 12)
    rw [h4] at hsq
    norm_num at hsq

end BJJ
